import Mathlib

/-!
# Verification of the STL robustness engine

Shallow embedding of the STL robustness engine of this repository
(`stgem/objective/Robustness.py` and `stl/visitor.py`) together with proofs
settling the specification claims about it.

Python floats are modelled as rationals (`ℚ`); the `float("inf")` sentinel used
by `Global.eval` is modelled as `⊤` in `WithTop ℚ`.  Python exceptions are
modelled with `Except PyErr` for constructors and `Option` for evaluation
loops that can raise `IndexError`.

Python objects of the formula classes set *different* attributes depending on
the class (`range` vs `var_range`, `horizon` present or absent); attribute
lookup on an object lacking the attribute raises `AttributeError`.  The record
`PyAttrs` models exactly the three numeric attributes the claims depend on;
a field value `none` means the attribute is absent on that object.
-/

/-- Python exception kinds raised by the embedded code. -/
inductive PyErr where
  | attributeError
  | valueError
  | notImplementedError
  | nameError
  deriving DecidableEq, Repr

/-- The numeric attributes a constructed formula object carries.
`range` is an attribute whose value may itself be Python `None`
(hence `Option (Option _)`): the outer `none` means the attribute is absent,
`some none` means it is set to `None`.  `var_range` and `horizon` are never
set to `None` in the source, so a single `Option` (absent / present) suffices.
The `variables`, `nom` and `arity` attributes are not modelled: no claim
reads them. -/
structure PyAttrs where
  range : Option (Option (ℚ × ℚ))
  var_range : Option (ℚ × ℚ)
  horizon : Option ℚ
  deriving DecidableEq, Repr

/-- Reading `obj.range`: `AttributeError` when the attribute is absent. -/
def PyAttrs.getRangeAttr (a : PyAttrs) : Except PyErr (Option (ℚ × ℚ)) :=
  match a.range with
  | some v => .ok v
  | none => .error .attributeError

/-- Reading `obj.var_range`: `AttributeError` when the attribute is absent. -/
def PyAttrs.getVarRange (a : PyAttrs) : Except PyErr (ℚ × ℚ) :=
  match a.var_range with
  | some v => .ok v
  | none => .error .attributeError

/-- Reading `obj.horizon`: `AttributeError` when the attribute is absent. -/
def PyAttrs.getHorizon (a : PyAttrs) : Except PyErr ℚ :=
  match a.horizon with
  | some v => .ok v
  | none => .error .attributeError

/-- The `if (A > B): swap` canonicalisation used repeatedly in the source. -/
def pySwap (A B : ℚ) : ℚ × ℚ :=
  if A > B then (B, A) else (A, B)

/-- `Signal.__init__` (`Robustness.py` lines 77-86): sets `horizon = 0` and the
`range` attribute (possibly to `None`); does *not* set `var_range`. -/
def signalAttrs (rng : Option (ℚ × ℚ)) : PyAttrs :=
  { range := some rng, var_range := none, horizon := some 0 }

/-- `Const.__init__` (lines 102-109): sets `var_range = [val, val]` and
`horizon = 0`; does *not* set `range`. -/
def constAttrs (val : ℚ) : PyAttrs :=
  { range := none, var_range := some (val, val), horizon := some 0 }

/-- `Subtract.__init__` (lines 123-137): reads `left.range` and `right.range`
(`AttributeError` when absent); the stored range is the interval difference
`[l₀ - r₁, l₁ - r₀]`, or `None` when either child range is `None`.
Sets neither `var_range` nor `horizon`. -/
def subtractInit (l r : PyAttrs) : Except PyErr PyAttrs := do
  let lr ← l.getRangeAttr
  let rr ← r.getRangeAttr
  let rng : Option (ℚ × ℚ) :=
    match lr, rr with
    | some a, some b => some (a.1 - b.2, a.2 - b.1)
    | _, _ => none
  return { range := some rng, var_range := none, horizon := none }

/-- `GreaterThan.__init__` (lines 145-167): reads `left.range`/`right.range`;
when both are known the stored range is the *endpointwise* difference
`(l₀ - r₀, l₁ - r₁)` canonicalised by the swap, not the interval difference.
Sets `horizon = 0` unconditionally; does not set `var_range`.
(The numeric-literal-to-`Const` coercion of lines 148-151 is outside the
model: inputs here are already constructed objects.) -/
def greaterThanInit (l r : PyAttrs) : Except PyErr PyAttrs := do
  let lr ← l.getRangeAttr
  let rr ← r.getRangeAttr
  let rng : Option (ℚ × ℚ) :=
    match lr, rr with
    | some a, some b => some (pySwap (a.1 - b.1) (a.2 - b.2))
    | _, _ => none
  return { range := some rng, var_range := none, horizon := some 0 }

/-- `LessThan.__init__` (lines 173-188): reads `var_range` of both children
(`AttributeError` when absent), stores the canonicalised endpointwise
difference `(r₀ - l₀, r₁ - l₁)` into `var_range`, and sets `horizon = 0`. -/
def lessThanInit (l r : PyAttrs) : Except PyErr PyAttrs := do
  let lv ← l.getVarRange
  let rv ← r.getVarRange
  return { range := none, var_range := some (pySwap (rv.1 - lv.1) (rv.2 - lv.2)),
           horizon := some 0 }

/-- `Abs.__init__` (lines 195-209): reads `formula.var_range`, stores the
canonicalised `(|v₀|, |v₁|)`, sets `horizon = 0`. -/
def absInit (f : PyAttrs) : Except PyErr PyAttrs := do
  let v ← f.getVarRange
  return { range := none, var_range := some (pySwap |v.1| |v.2|), horizon := some 0 }

/-- `Sum.__init__` (lines 215-225): reads `var_range` of both children and
stores the endpoint sums; sets *no* `horizon` attribute at all. -/
def sumInit (l r : PyAttrs) : Except PyErr PyAttrs := do
  let lv ← l.getVarRange
  let rv ← r.getVarRange
  return { range := none, var_range := some (lv.1 + rv.1, lv.2 + rv.2), horizon := none }

/-- `Implication.__init__` (lines 233-243): reads `var_range` of both children,
stores `(max (-l₁) r₀, max (-l₀) r₁)`, and sets
`horizon = max(left.horizon, right.horizon)`. -/
def implicationInit (l r : PyAttrs) : Except PyErr PyAttrs := do
  let lv ← l.getVarRange
  let rv ← r.getVarRange
  let hl ← l.getHorizon
  let hr ← r.getHorizon
  return { range := none, var_range := some (max (-lv.2) rv.1, max (-lv.1) rv.2),
           horizon := some (max hl hr) }

/-- `Equals.__init__` (lines 248-262): reads `var_range` of both children,
stores the canonicalised `(-|r₀ - l₀|, -|r₁ - l₁|)`, sets `horizon = 0`. -/
def equalsInit (l r : PyAttrs) : Except PyErr PyAttrs := do
  let lv ← l.getVarRange
  let rv ← r.getVarRange
  return { range := none, var_range := some (pySwap (-|rv.1 - lv.1|) (-|rv.2 - lv.2|)),
           horizon := some 0 }

/-- `Not.__init__` (lines 270-283): reads `formula.var_range`, stores the
canonicalised negated endpoints, copies `formula.horizon`. -/
def notInit (f : PyAttrs) : Except PyErr PyAttrs := do
  let v ← f.getVarRange
  let h ← f.getHorizon
  return { range := none, var_range := some (pySwap (-v.1) (-v.2)), horizon := some h }

/-- `Global.__init__` (lines 323-332): reads `formula.range` (`AttributeError`
when absent), copies it, and sets `horizon = upper_time_bound + formula.horizon`.
Does not set `var_range`.  The time bounds are stored but take no part in the
attribute computation. -/
def globalInit (_lower _upper : ℚ) (f : PyAttrs) : Except PyErr PyAttrs := do
  let r ← f.getRangeAttr
  let h ← f.getHorizon
  return { range := some r, var_range := none, horizon := some (_upper + h) }

/-- `Finally.__init__` (lines 359-367): copies `formula.var_range` and sets
`horizon = upper_time_bound + formula.horizon`. -/
def finallyInit (_lower _upper : ℚ) (f : PyAttrs) : Except PyErr PyAttrs := do
  let v ← f.getVarRange
  let h ← f.getHorizon
  return { range := none, var_range := some v, horizon := some (_upper + h) }

/-- `Weak_Until.__init__` (lines 452-461): copies `left.var_range` and sets
`horizon = upper_time_bound + max(left.horizon, right.horizon)`. -/
def weakUntilInit (_lower _upper : ℚ) (l r : PyAttrs) : Except PyErr PyAttrs := do
  let lv ← l.getVarRange
  let hl ← l.getHorizon
  let hr ← r.getHorizon
  return { range := none, var_range := some lv, horizon := some (_upper + max hl hr) }

/-- `And.__init__` (lines 381-400), in source order:
the `nu <= 0` check raises `ValueError` first; `horizon` is
`max(f.horizon for f in formulas)` (reading each child's `horizon` attribute;
`max` of an empty sequence raises `ValueError`); then each child's `range`
attribute is read.  When some child range is `None` the object's `range` is set
to `None` and construction succeeds.  Otherwise the source executes
`self.range(min(A), min(B))` — a *call* of the not-yet-existing attribute
`self.range` instead of an assignment — which raises `AttributeError`. -/
def andInit (formulas : List PyAttrs) (nu : ℚ) : Except PyErr PyAttrs := do
  if nu ≤ 0 then throw .valueError
  let hs ← formulas.mapM PyAttrs.getHorizon
  let _horizon ← match hs with
    | [] => throw PyErr.valueError
    | h :: t => pure (t.foldl max h)
  let rs ← formulas.mapM PyAttrs.getRangeAttr
  if rs.any Option.isNone then
    return { range := some none, var_range := none, horizon := some _horizon }
  else
    throw .attributeError

/-- `Or.__init__` (lines 373-376): builds `Not(f)` for every argument, then
`And(*nots, nu=nu)`; the resulting object stores only `self.formula` and sets
none of the three numeric attributes. -/
def orInit (formulas : List PyAttrs) (nu : ℚ) : Except PyErr PyAttrs := do
  let ns ← formulas.mapM notInit
  let _ ← andInit ns nu
  return { range := none, var_range := none, horizon := none }

/-! ## `Traces.search_time_index` and `Global.eval`

`Global.eval` works on the robustness array returned by the subformula's
`eval`; that array is abstracted here as a list of values in `WithTop ℚ`
(`⊤` standing for the `float("inf")` that `Global.eval` itself can produce,
so nested `Global`s are covered). -/

/-- Python indexing `l[i]` on a list: non-negative indices from the front,
negative indices from the back, out of range yields `none` (`IndexError`). -/
def pyIndex (l : List ℚ) (i : ℤ) : Option ℚ :=
  if 0 ≤ i then l.get? i.toNat
  else if 0 ≤ (l.length : ℤ) + i then l.get? ((l.length : ℤ) + i).toNat
  else none

/-- The scan of `Traces.search_time_index` (`Robustness.py` lines 58-65) from a
non-negative position: `searchFromAux t l i` scans `l` (the tail of the
timestamps starting at index `i`) and returns the index (in the full list) of
the first element equal to `t`, or `-1`. -/
def searchFromAux (t : ℚ) : List ℚ → ℕ → ℤ
  | [], _ => -1
  | s :: rest, i => if s = t then (i : ℤ) else searchFromAux t rest (i + 1)

/-- The indices `start, start+1, …, -1` visited by `range(start, len)` before
index `0` when `start` is negative. -/
def negIdxs (start : ℤ) : List ℤ :=
  (List.range (-start).toNat).map (fun k => start + k)

/-- `Traces.search_time_index(t, start)` (lines 58-65): linear scan of
`range(start, len(timestamps))` for an exact timestamp match, `-1` when there
is none.  `Global.eval` passes `start = lower_bound_pos`, which can be `-1`;
Python then begins the scan at the *negative* index `-1`, i.e. at the last
element.  (An index whose access would raise `IndexError` is treated as a
non-match; such an access is unreachable from `Global.eval`.) -/
def searchTimeIndex (timestamps : List ℚ) (t : ℚ) (start : ℤ) : ℤ :=
  if 0 ≤ start then searchFromAux t (timestamps.drop start.toNat) start.toNat
  else
    match (negIdxs start).find? (fun i =>
        match pyIndex timestamps i with
        | some s => decide (s = t)
        | none => false) with
    | some i => i
    | none => searchFromAux t timestamps 0

/-- `np.min` over a robustness slice; the slice is never empty where this is
used, so the `⊤` returned on `[]` is unreachable junk. -/
def npMin : List (WithTop ℚ) → WithTop ℚ
  | [] => ⊤
  | a :: rest => min a (npMin rest)

/-- `Global.eval` (`Robustness.py` lines 334-356).  The subformula's robustness
array is the argument `robustness`. For each position `i` (the source loop runs
from the last position to the first, but the entries are independent):
`lower_bound_pos` is the exact-match index of `timestamps[i] + lb` searching
from `i`; `upper_bound_pos` the exact-match index of `timestamps[i] + ub`
searching from `lower_bound_pos`.  If `lower_bound_pos == -1` the result is
`float("inf")`; otherwise it is `np.min` of `robustness[lower_bound_pos :
upper_bound_pos + 1]` (or to the end of the array when `upper_bound_pos < 0`).
The source writes into `np.empty(len(robustness))`; as in every intended use
the robustness array has one entry per timestamp, the result has
`timestamps.length` entries. -/
def globalEval (lb ub : ℚ) (timestamps : List ℚ) (robustness : List (WithTop ℚ)) :
    List (WithTop ℚ) :=
  (List.range timestamps.length).map fun current_time_pos =>
    let lower_bound := timestamps.getD current_time_pos 0 + lb
    let upper_bound := timestamps.getD current_time_pos 0 + ub
    let lower_bound_pos := searchTimeIndex timestamps lower_bound (current_time_pos : ℤ)
    let upper_bound_pos := searchTimeIndex timestamps upper_bound lower_bound_pos
    if lower_bound_pos = -1 then (⊤ : WithTop ℚ)
    else
      let start_pos := lower_bound_pos.toNat
      let end_pos := if 0 ≤ upper_bound_pos then upper_bound_pos.toNat + 1
                     else timestamps.length
      npMin ((robustness.drop start_pos).take (end_pos - start_pos))

/-- The first index of `l` whose element satisfies `p` — the "exact-match
index" language of the specification. -/
def specFindIdx (p : ℚ → Bool) : List ℚ → Option ℕ
  | [] => none
  | s :: rest => if p s then some 0 else (specFindIdx p rest).map (· + 1)

/-- The exact-match index of time `t` in the timestamps (specification side). -/
def specExactMatchIndex (timestamps : List ℚ) (t : ℚ) : Option ℕ :=
  specFindIdx (fun s => decide (s = t)) timestamps

/-- The claim's reading of `Global`: at instant `i`, `+∞` when `t[i] + lb` has
no exact match; otherwise the minimum of the robustness samples from the
exact-match index of `t[i] + lb` to that of `t[i] + ub`, the window extending
to the trace end when `t[i] + ub` has no exact match. -/
def specGlobalAt (lb ub : ℚ) (timestamps : List ℚ) (robustness : List (WithTop ℚ))
    (i : ℕ) : WithTop ℚ :=
  match specExactMatchIndex timestamps (timestamps.getD i 0 + lb) with
  | none => ⊤
  | some lo =>
    let hi := (specExactMatchIndex timestamps (timestamps.getD i 0 + ub)).getD
      (timestamps.length - 1)
    npMin ((List.range (hi + 1 - lo)).map (fun k => robustness.getD (lo + k) ⊤))

/-- Modelled from the spec: the robustness of the parsed predicate `x > 0`.
The parser's `StrictlyGreaterThan` lives in `stl/robustness.py`, which is not
part of the sources here; per the spec (§4.4, §8) a comparison `x > c`
evaluates to the sample-wise difference `x - c`, and parsing then evaluating
`"x > 0"` against `x = [1,-1,2,-2]` yields `[1,-1,2,-2]`. -/
def strictlyGreaterThanRobustness (x : List ℚ) (c : ℚ) : List ℚ :=
  x.map (fun v => v - c)

/-! ## `And.eval` (the smoothed conjunction, lines 416-449)

The robustness matrix `rho` is the list of the children's robustness vectors.
`np.exp` is abstracted as a function parameter `exp : ℚ → ℚ`; the theorems
about this definition only ever assume `exp 0 = 1`, which holds for the real
exponential. -/

/-- `np.min` over a nonempty rational array (the `[]` case is unreachable
junk: the matrix always has at least one row where this is used). -/
def npMinQ : List ℚ → ℚ
  | [] => 0
  | a :: rest => rest.foldl min a

/-- `And.eval` (lines 416-449).  With no subformulas the source never binds
`rho` and `np.min(rho, axis=0)` raises (`none` here); a row of a different
length than the first raises on the `rho[i,:] = r` assignment (`none`).
Otherwise, for each column `i`: `rho_min` is the columnwise minimum,
`rho_tilde = rho[:,i]/rho_min[i] - 1`, and the smoothed robustness follows the
three sign cases of the source. -/
def andEvalSmoothed (exp : ℚ → ℚ) (nu : ℚ) (rho : List (List ℚ)) :
    Option (List ℚ) :=
  match rho with
  | [] => none
  | r0 :: rest =>
    if rest.any (fun r => r.length ≠ r0.length) then none
    else some ((List.range r0.length).map (fun i =>
      let col := (r0 :: rest).map (fun r => r.getD i 0)
      let rhoMin := npMinQ col
      let rhoTilde := col.map (fun x => x / rhoMin - 1)
      if rhoMin < 0 then
        (rhoMin * (rhoTilde.map (fun x => exp ((1 + nu) * x))).sum) /
          (rhoTilde.map (fun x => exp (nu * x))).sum
      else if rhoMin > 0 then
        ((col.zip rhoTilde).map (fun p => p.1 * exp (-nu * p.2))).sum /
          (rhoTilde.map (fun x => exp (-1 * nu * x))).sum
      else 0 / 1))

/-! ## `Equals.eval` (lines 264-268) -/

/-- `Equals.eval`: builds `Not(Abs(Subtract(left, right)))` *at evaluation
time* and evaluates it, remapping exact zeros to `1`.  The children are given
by their attribute records and their robustness vectors.  Construction always
raises: with `range`-less children (`Const`) already `Subtract.__init__` does,
and otherwise `Abs.__init__` reads `var_range` on the `Subtract` object, which
only sets `range`.  The computation after the three constructor calls is the
source's semantics, unreachable in practice. -/
def equalsEvalRob (l r : PyAttrs) (lRob rRob : List ℚ) : Except PyErr (List ℚ) := do
  let s ← subtractInit l r
  let a ← absInit s
  let _ ← notInit a
  let robustness := (lRob.zip rRob).map (fun p => -|p.1 - p.2|)
  return robustness.map (fun x => if x = 0 then 1 else x)

/-! ## `Traces.from_mixed_signals` (lines 17-56)

The Python signature interleaves `name1, timestamps1, signal1, name2, …`;
the model takes the list of triples.  Every call raises: with
`sampling_period=None` the explicit `raise NotImplementedError()` fires;
otherwise `T = max(...)` raises `ValueError` on an empty argument list, and
line 35 references `self.sampling_period` although `self` is not bound in the
classmethod (its first parameter is `C`), raising `NameError`. -/

/-- `Traces.from_mixed_signals`. -/
def fromMixedSignals (signalArgs : List (String × List ℚ × List ℚ))
    (samplingPeriod : Option ℚ) : Except PyErr Unit :=
  match samplingPeriod with
  | none => .error .notImplementedError
  | some _ =>
    match signalArgs.map (fun a => a.2.1.length) with
    | [] => .error .valueError
    | _ :: _ => .error .nameError

/-! ## `Weak_Until.eval` (lines 463-485)

The children's robustness vectors are abstracted as the arguments `leftRob`
and `rightRob` (the source computes them by evaluating the two subformulas on
the whole trace); `varHi` is `self.var_range[1]`, i.e. the upper end of the
left formula's declared range, copied by `Weak_Until.__init__`.  The unused
`time` parameter of the source's `eval` is dropped. -/

/-- The first loop, `while timestamps[i] < lb: i += 1`, starting at index `i`
with `rest = timestamps.drop i`: index of the first timestamp `≥ lb`, `none`
when the loop runs past the end (`IndexError`). -/
def wuFindStart (lb : ℚ) : List ℚ → ℕ → Option ℕ
  | [], _ => none
  | s :: rest, i => if s < lb then wuFindStart lb rest (i + 1) else some i

/-- The second loop: scan `while i < len(timestamps) and timestamps[i] <= ub
and rightRob[i] < 0`, keeping the running minimum `m` of `leftRob[i]`
(`if m > leftRob[i]: m = leftRob[i]`).  `rest` is `timestamps.drop i`; an
out-of-range robustness access is an `IndexError` (`none`). -/
def wuScan (ub : ℚ) (leftRob rightRob : List ℚ) : List ℚ → ℕ → ℚ → Option ℚ
  | [], _, m => some m
  | s :: rest, i, m =>
    if s ≤ ub then
      match rightRob[i]? with
      | none => none
      | some rv =>
        if rv < 0 then
          match leftRob[i]? with
          | none => none
          | some lv => wuScan ub leftRob rightRob rest (i + 1) (if m > lv then lv else m)
        else some m
    else some m

/-- `Weak_Until.eval`: both loops, then `np.full(len(leftRob), m)` — the
single accumulated minimum is returned at *every* trace instant. -/
def weakUntilEval (lb ub varHi : ℚ) (timestamps leftRob rightRob : List ℚ) :
    Option (List ℚ) := do
  let i0 ← wuFindStart lb timestamps 0
  let m ← wuScan ub leftRob rightRob (timestamps.drop i0) i0 varHi
  return List.replicate leftRob.length m

/-- The claim's reading of weak until at instant `i`: scan forward from the
first sample at or after `timestamps[i] + lb`, accumulating the running
minimum (seeded with the left formula's range upper bound) of the left
robustness while the right robustness is negative and the timestamp does not
exceed `timestamps[i] + ub`. -/
def specWeakUntilAt (lb ub varHi : ℚ) (timestamps leftRob rightRob : List ℚ)
    (i : ℕ) : ℚ :=
  let tI := timestamps.getD i 0
  let start := timestamps.findIdx (fun s => decide (tI + lb ≤ s))
  let window := ((timestamps.zip (leftRob.zip rightRob)).drop start).takeWhile
    (fun p => decide (p.1 ≤ tI + ub) && decide (p.2.2 < 0))
  window.foldl (fun m p => min m p.2.1) varHi

/-- The claim's reading of weak until: the instant-wise scan at every index. -/
def specWeakUntilList (lb ub varHi : ℚ) (timestamps leftRob rightRob : List ℚ) :
    List ℚ :=
  (List.range timestamps.length).map (specWeakUntilAt lb ub varHi timestamps leftRob rightRob)

/-- What a single run of the source's scan computes (used to state the amended
claim): the running minimum, seeded with `varHi`, of the left robustness over
the longest prefix of samples from `start` on whose timestamps are `≤ ub`
(absolute!) and whose right robustness is negative. -/
def wuSpecMin (ub varHi : ℚ) (timestamps leftRob rightRob : List ℚ) (start : ℕ) : ℚ :=
  (((timestamps.zip (leftRob.zip rightRob)).drop start).takeWhile
    (fun p => decide (p.1 ≤ ub) && decide (p.2.2 < 0))).foldl
    (fun m p => min m p.2.1) varHi

/-! ## The AST builder (`stl/visitor.py`)

The grammar (`stlParser.g4`) and the formula classes (`stl/robustness.py`)
are not part of the sources here.  Modelled from the spec: the parser turns
`and`/`or` chains into *binary* parse nodes (`'A and B and C'` arrives as
nested two-child `opAndExpr` contexts — the visitor's own docstring notes it
is never called with five children) and wraps parenthesised subformulas in a
`parenPhiExpr` node; the built formulas are tagged variants where `And`/`Or`
carry their argument list `formulas`, plus the ad hoc `parenthesized` flag
that `visitParenPhiExpr` sets on whatever node it returns. -/

/-- Parse-tree fragment relevant to `and`/`or` flattening. `atom` stands for
any formula unit that is not an `and`/`or` chain or a parenthesised group. -/
inductive ParseTree where
  | atom (name : String)
  | andNode (l r : ParseTree)
  | orNode (l r : ParseTree)
  | paren (t : ParseTree)
  deriving DecidableEq, Repr

/-- Built formulas: `and`/`or` nodes carry their `formulas` list; every node
carries the `parenthesized` flag (`false` unless `visitParenPhiExpr` set it —
in Python the flag is an attribute that is absent unless set). -/
inductive Phi where
  | atom (name : String) (parenthesized : Bool)
  | and (formulas : List Phi) (parenthesized : Bool)
  | or (formulas : List Phi) (parenthesized : Bool)

/-- `visitParenPhiExpr` (visitor lines 54-59): sets `child.parenthesized = True`
on the already-built child and returns it. -/
def setParenthesized : Phi → Phi
  | .atom n _ => .atom n true
  | .and fs _ => .and fs true
  | .or fs _ => .or fs true

/-- The argument-flattening step of `visitOpAndExpr` (lines 99-109): an `And`
child *without* the `parenthesized` attribute contributes its own argument
list, anything else contributes itself as a single argument. -/
def andArgs (p : Phi) : List Phi :=
  match p with
  | .and fs false => fs
  | _ => [p]

/-- The argument-flattening step of `visitOpOrExpr` (lines 133-143). -/
def orArgs (p : Phi) : List Phi :=
  match p with
  | .or fs false => fs
  | _ => [p]

/-- The visitor fold of the parse tree into the formula AST
(`visitOpAndExpr`, `visitOpOrExpr`, `visitParenPhiExpr`).  The `nu`
parameter the visitor forwards to `And`/`Or` plays no part in the tree
shape and is not modelled. -/
def visitPhi : ParseTree → Phi
  | .atom n => .atom n false
  | .paren t => setParenthesized (visitPhi t)
  | .andNode l r => .and (andArgs (visitPhi l) ++ andArgs (visitPhi r)) false
  | .orNode l r => .or (orArgs (visitPhi l) ++ orArgs (visitPhi r)) false

/-- `p` is an `And` node without the `parenthesized` flag — exactly the nodes
`visitOpAndExpr` merges into the parent argument list. -/
def isBareAnd : Phi → Bool
  | .and _ false => true
  | _ => false

/-- `p` is an `Or` node without the `parenthesized` flag. -/
def isBareOr : Phi → Bool
  | .or _ false => true
  | _ => false

/-! ## Specification-side interval arithmetic (claim C5) -/

/-- The claim's interval subtraction for the relational predicates: bounds
`[left.min - right.max, left.max - right.min]`, canonicalised. -/
def specIntervalSubRange (l r : ℚ × ℚ) : ℚ × ℚ :=
  pySwap (l.1 - r.2) (l.2 - r.1)

/-! # Theorems -/

/-! ## Helper lemmas for the `Global` window characterisation -/

theorem searchFromAux_eq_spec (t : ℚ) (l : List ℚ) :
    ∀ i : ℕ, searchFromAux t l i =
      match specFindIdx (fun s => decide (s = t)) l with
      | some j => ((i + j : ℕ) : ℤ)
      | none => -1 := by
  induction l with
  | nil => intro i; rfl
  | cons s rest ih =>
    intro i
    by_cases h : s = t
    · simp [searchFromAux, specFindIdx, h]
    · rw [searchFromAux, if_neg h, specFindIdx]
      rw [if_neg (by simp [h])]
      rw [ih (i + 1)]
      cases hs : specFindIdx (fun s => decide (s = t)) rest with
      | none => simp
      | some j =>
        simp only [hs, Option.map_some']


        congr 1; omega

theorem specFindIdx_eq_none_iff (p : ℚ → Bool) (l : List ℚ) :
    specFindIdx p l = none ↔ ∀ a ∈ l, p a = false := by
  induction l with
  | nil => simp [specFindIdx]
  | cons s rest ih =>
    by_cases h : p s <;> simp [specFindIdx, h, ih]

theorem specFindIdx_eq_some_iff (p : ℚ → Bool) (l : List ℚ) (j : ℕ) :
    specFindIdx p l = some j ↔
      (∃ a, l[j]? = some a ∧ p a = true) ∧
        ∀ k, k < j → ∀ b, l[k]? = some b → p b = false := by
  induction l generalizing j with
  | nil => simp [specFindIdx]
  | cons s rest ih =>
    by_cases h : p s
    · rw [specFindIdx, if_pos h]
      cases j with
      | zero => simp [h]
      | succ j =>
        constructor
        · intro hc; exact absurd hc (by simp)
        · rintro ⟨-, hmin⟩
          exact absurd (hmin 0 (Nat.succ_pos j) s (by simp)) (by simp [h])
    · rw [specFindIdx, if_neg h]
      cases j with
      | zero =>
        constructor
        · intro hc
          rw [Option.map_eq_some'] at hc
          obtain ⟨j', -, hj'⟩ := hc; omega
        · rintro ⟨⟨a, ha, hpa⟩, -⟩
          simp only [List.getElem?_cons_zero, Option.some.injEq] at ha
          subst ha; simp [hpa] at h
      | succ j =>
        rw [Option.map_eq_some']
        constructor
        · rintro ⟨j', hj', heq⟩
          obtain ⟨hex, hmin⟩ := (ih j').mp hj'
          have hj : j' = j := by omega
          refine ⟨by simpa [← hj] using hex, ?_⟩
          intro k hk b hb
          cases k with
          | zero =>
            simp only [List.getElem?_cons_zero, Option.some.injEq] at hb
            subst hb; simpa using h
          | succ k => exact hmin k (by omega) b (by simpa using hb)
        · rintro ⟨hex, hmin⟩
          refine ⟨j, (ih j).mpr ⟨by simpa using hex, ?_⟩, rfl⟩
          intro k hk b hb
          exact hmin (k + 1) (by omega) b (by simpa using hb)

theorem pairwise_lt_of_getElem? {ts : List ℚ} (hmono : ts.Pairwise (· < ·))
    {i j : ℕ} {a b : ℚ} (hij : i < j) (ha : ts[i]? = some a) (hb : ts[j]? = some b) :
    a < b := by
  rw [List.getElem?_eq_some_iff] at ha hb
  obtain ⟨hil, ha⟩ := ha
  obtain ⟨hjl, hb⟩ := hb
  have := List.pairwise_iff_get.mp hmono ⟨i, hil⟩ ⟨j, hjl⟩ hij
  simp only [List.get_eq_getElem] at this
  rw [ha, hb] at this
  exact this

theorem searchTimeIndex_eq_spec {ts : List ℚ} (hmono : ts.Pairwise (· < ·))
    {i : ℕ} (hi : i < ts.length) {t : ℚ} (ht : ts.getD i 0 ≤ t) :
    searchTimeIndex ts t (i : ℤ) =
      match specExactMatchIndex ts t with
      | none => -1
      | some j => (j : ℤ) := by
  rw [searchTimeIndex, if_pos (Int.ofNat_nonneg i), Int.toNat_ofNat,
    searchFromAux_eq_spec]
  cases hspec : specExactMatchIndex ts t with
  | none =>
    have hnone : specFindIdx (fun s => decide (s = t)) (ts.drop i) = none := by
      rw [specFindIdx_eq_none_iff]
      exact fun a ha =>
        (specFindIdx_eq_none_iff _ ts).mp hspec a (List.drop_subset _ _ ha)
    simp [hnone]
  | some j =>
    obtain ⟨⟨a, haj, hpa⟩, hmin⟩ :=
      (specFindIdx_eq_some_iff (fun s => decide (s = t)) ts j).mp hspec
    have hat : a = t := by simpa using hpa
    subst hat
    have hgdi : ts[i]? = some (ts.getD i 0) := by
      rw [List.getD_eq_getElem?_getD, List.getElem?_eq_getElem hi]
      rfl
    have hij : i ≤ j := by
      by_contra hlt
      push_neg at hlt
      have : a < ts.getD i 0 := pairwise_lt_of_getElem? hmono hlt haj hgdi
      exact absurd ht (not_le.mpr this)
    have hdrop : specFindIdx (fun s => decide (s = a)) (ts.drop i) = some (j - i) := by
      rw [specFindIdx_eq_some_iff]
      refine ⟨⟨a, ?_, by simp⟩, ?_⟩
      · rw [List.getElem?_drop]
        have hadd : i + (j - i) = j := by omega
        rw [hadd]; exact haj
      · intro k hk b hb
        rw [List.getElem?_drop] at hb
        exact hmin (i + k) (by omega) b hb
    simp only [hdrop]
    congr 1
    omega

theorem npMin_eq_top {l : List (WithTop ℚ)} (h : ∀ x ∈ l, x = ⊤) : npMin l = ⊤ := by
  induction l with
  | nil => rfl
  | cons a rest ih =>
    rw [npMin, h a (by simp), ih (fun x hx => h x (by simp [hx]))]
    simp

theorem npMin_drop_take (rob : List (WithTop ℚ)) :
    ∀ (m lo : ℕ), npMin ((rob.drop lo).take m) =
      npMin ((List.range m).map (fun k => rob.getD (lo + k) ⊤)) := by
  intro m
  induction m with
  | zero => intro lo; rfl
  | succ m ih =>
    intro lo
    cases hd : rob.drop lo with
    | nil =>
      have hlen : rob.length ≤ lo := List.drop_eq_nil_iff.mp hd
      simp only [List.take_nil]
      rw [show npMin [] = ⊤ from rfl]
      symm
      apply npMin_eq_top
      intro x hx
      obtain ⟨k, -, rfl⟩ := List.mem_map.mp hx
      exact List.getD_eq_default _ _ (by omega)
    | cons a tail =>
      have htail : tail = rob.drop (lo + 1) := by
        have h1 : (rob.drop lo).drop 1 = rob.drop (lo + 1) := List.drop_drop 1 lo rob
        rw [hd] at h1; simpa using h1
      have ha : rob.getD lo ⊤ = a := by
        have h0 := List.getElem?_drop rob lo 0
        rw [hd] at h0
        simp only [List.getElem?_cons_zero, Nat.add_zero] at h0
        rw [List.getD_eq_getElem?_getD, ← h0]
        rfl
      rw [List.take_succ_cons, List.range_succ_eq_map, List.map_cons, List.map_map]
      rw [npMin, npMin, Nat.add_zero, ha]
      congr 1
      rw [htail, ih (lo + 1)]
      congr 1
      apply List.map_congr_left
      intro k _hk
      simp only [Function.comp_apply]
      congr 1
      omega

theorem globalEvalMain :
    ∀ (lb ub : ℚ) (ts : List ℚ) (rob : List (WithTop ℚ)),
      ts.Pairwise (· < ·) → 0 ≤ lb → lb ≤ ub →
      globalEval lb ub ts rob =
        (List.range ts.length).map (specGlobalAt lb ub ts rob) := by
  intro lb ub ts rob hmono hlb hlbub
  rw [globalEval]
  apply List.map_congr_left
  intro i hm
  have hi : i < ts.length := List.mem_range.mp hm
  have hlow : searchTimeIndex ts (ts.getD i 0 + lb) (i : ℤ) =
      match specExactMatchIndex ts (ts.getD i 0 + lb) with
      | none => -1 | some j => (j : ℤ) :=
    searchTimeIndex_eq_spec hmono hi (by linarith)
  rw [specGlobalAt]
  cases hsem : specExactMatchIndex ts (ts.getD i 0 + lb) with
  | none =>
    rw [hsem] at hlow
    simp [hlow, -List.getD_eq_getElem?_getD]
  | some lo =>
    rw [hsem] at hlow
    obtain ⟨⟨a, halo, hpa⟩, -⟩ :=
      (specFindIdx_eq_some_iff (fun s => decide (s = ts.getD i 0 + lb)) ts lo).mp hsem
    have hta : a = ts.getD i 0 + lb := by simpa using hpa
    subst hta
    have hlol : lo < ts.length := by
      rw [List.getElem?_eq_some_iff] at halo; exact halo.1
    have hgdlo : ts.getD lo 0 = ts.getD i 0 + lb := by
      rw [List.getD_eq_getElem?_getD, halo]; rfl
    have hup : searchTimeIndex ts (ts.getD i 0 + ub) ((lo : ℕ) : ℤ) =
        match specExactMatchIndex ts (ts.getD i 0 + ub) with
        | none => -1 | some j => (j : ℤ) :=
      searchTimeIndex_eq_spec hmono hlol (by rw [hgdlo]; linarith)
    cases hsem2 : specExactMatchIndex ts (ts.getD i 0 + ub) with
    | some hi2 =>
      rw [hsem2] at hup
      simp only [hlow, hup]
      rw [if_neg (by omega)]
      rw [if_pos (Int.ofNat_nonneg hi2)]
      rw [Int.toNat_ofNat, Int.toNat_ofNat]
      rw [npMin_drop_take]
      simp only [Option.getD_some]
    | none =>
      rw [hsem2] at hup
      simp only [hlow, hup]
      rw [if_neg (by omega)]
      rw [if_neg (by omega)]
      rw [Int.toNat_ofNat]
      rw [npMin_drop_take]
      simp only [Option.getD_none]
      have hlen : ts.length - 1 + 1 = ts.length := by omega
      rw [hlen]

/-- C1: for every formula (given by its robustness vector over `ℚ ∪ {+∞}`)
and every trace with strictly increasing timestamps and time bounds
`0 ≤ lb ≤ ub`, `Global.eval` yields at each instant `i` the minimum of the
robustness samples from the exact-match index of `t[i]+lb` to the exact-match
index of `t[i]+ub`; `+∞` when `t[i]+lb` has no exact match, and a window
extending to the trace end when `t[i]+ub` has none.  In particular, on
timestamps `[0,1,2,3]` with `x = [1,-1,2,-2]`, `G[0,2](x > 0)` evaluates to
`[-1,-2,-2,-2]`. -/
theorem global_eval_exact_match_window :
    (∀ (lb ub : ℚ) (ts : List ℚ) (rob : List (WithTop ℚ)),
        ts.Pairwise (· < ·) → 0 ≤ lb → lb ≤ ub →
        globalEval lb ub ts rob =
          (List.range ts.length).map (specGlobalAt lb ub ts rob)) ∧
      globalEval 0 2 [0, 1, 2, 3]
          ((strictlyGreaterThanRobustness [1, -1, 2, -2] 0).map
            (fun q => (q : WithTop ℚ))) =
        [((-1 : ℚ) : WithTop ℚ), ((-2 : ℚ) : WithTop ℚ), ((-2 : ℚ) : WithTop ℚ),
          ((-2 : ℚ) : WithTop ℚ)] := by
  constructor
  · exact globalEvalMain
  · simp only [globalEval, strictlyGreaterThanRobustness, searchTimeIndex, searchFromAux, npMin,
      List.range_succ, List.length_cons, List.length_nil, List.map_cons, List.map_nil,
      List.map_append, List.getD, List.drop, List.take, List.get?]
    norm_num [searchFromAux]
    norm_num [Int.toNat_ofNat, List.take, List.drop, npMin]
    repeat' apply And.intro
    all_goals decide

/-- Witness for C1: the characterisation applied to the concrete trace
`[0,1,2,3]` with robustness `[1,-1,2,-2]` and bounds `[0,2]`. -/
theorem global_eval_exact_match_window_witness :
    globalEval 0 2 [0, 1, 2, 3] [(1 : ℚ), (-1 : ℚ), (2 : ℚ), (-2 : ℚ)] =
      (List.range 4).map
        (specGlobalAt 0 2 [0, 1, 2, 3] [(1 : ℚ), (-1 : ℚ), (2 : ℚ), (-2 : ℚ)]) := by
  have h := global_eval_exact_match_window.1 0 2 [0, 1, 2, 3]
    [(1 : ℚ), (-1 : ℚ), (2 : ℚ), (-2 : ℚ)] (by norm_num) (by norm_num) (by norm_num)
  simpa using h

/-! ## Helper lemmas for the `Weak_Until` characterisation -/

theorem pyRunningMin (m lv : ℚ) : (if m > lv then lv else m) = min m lv := by
  by_cases h : m > lv
  · rw [if_pos h, min_eq_right (le_of_lt h)]
  · rw [if_neg h, min_eq_left (not_lt.mp h)]

theorem wuFindStart_eq_spec (lb : ℚ) (l : List ℚ) :
    ∀ i : ℕ, wuFindStart lb l i =
      (specFindIdx (fun s => decide (lb ≤ s)) l).map (fun j => i + j) := by
  induction l with
  | nil => intro i; rfl
  | cons s rest ih =>
    intro i
    by_cases h : s < lb
    · rw [wuFindStart, if_pos h, specFindIdx, if_neg (by simpa using h), ih (i + 1),
        Option.map_map]
      cases hs : specFindIdx (fun s => decide (lb ≤ s)) rest with
      | none => rfl
      | some j => simp only [Option.map_some', Function.comp_apply]; congr 1; omega
    · rw [wuFindStart, if_neg h, specFindIdx, if_pos (by simpa using not_lt.mp h)]
      simp

theorem zip3_drop (ts l r : List ℚ) (i : ℕ) :
    (ts.zip (l.zip r)).drop i = (ts.drop i).zip ((l.drop i).zip (r.drop i)) := by
  simp [List.zip, List.drop_zipWith]

theorem wuScan_eq_spec (ub : ℚ) (ts leftRob rightRob : List ℚ)
    (hl : leftRob.length = ts.length) (hr : rightRob.length = ts.length) :
    ∀ (rest : List ℚ) (i : ℕ) (m : ℚ), rest = ts.drop i →
      wuScan ub leftRob rightRob rest i m =
        some ((((ts.zip (leftRob.zip rightRob)).drop i).takeWhile
          (fun p => decide (p.1 ≤ ub) && decide (p.2.2 < 0))).foldl
          (fun m p => min m p.2.1) m) := by
  intro rest
  induction rest with
  | nil =>
    intro i m hrest
    rw [zip3_drop, ← hrest]
    rfl
  | cons s tail ih =>
    intro i m hrest
    have hts : ts[i]? = some s := by
      have h0 := List.getElem?_drop ts i 0
      rw [← hrest] at h0
      simpa using h0.symm
    have hil : i < ts.length := by
      rw [List.getElem?_eq_some_iff] at hts; exact hts.1
    have hll : i < leftRob.length := by omega
    have hrl : i < rightRob.length := by omega
    have htv : leftRob[i]? = some leftRob[i] := List.getElem?_eq_getElem hll
    have hrv : rightRob[i]? = some rightRob[i] := List.getElem?_eq_getElem hrl
    have htail : tail = ts.drop (i + 1) := by
      have h1 : (ts.drop i).drop 1 = ts.drop (i + 1) := List.drop_drop 1 i ts
      rw [← hrest] at h1; simpa using h1
    have hzip : (ts.zip (leftRob.zip rightRob)).drop i =
        (s, (leftRob[i], rightRob[i])) :: (ts.zip (leftRob.zip rightRob)).drop (i + 1) := by
      rw [zip3_drop, zip3_drop]
      rw [List.drop_eq_getElem_cons hil, List.drop_eq_getElem_cons hll,
        List.drop_eq_getElem_cons hrl]
      have : ts[i] = s := by
        rw [List.getElem?_eq_getElem hil] at hts
        exact Option.some.inj hts
      rw [this]
      rfl
    rw [wuScan, hzip]
    by_cases hub : s ≤ ub
    · rw [if_pos hub]
      simp only [hrv]
      by_cases hneg : rightRob[i] < 0
      · rw [if_pos hneg]
        simp only [htv]
        rw [ih (i + 1) (if m > leftRob[i] then leftRob[i] else m) htail]
        rw [List.takeWhile_cons]
        have hcond : (decide ((s, (leftRob[i], rightRob[i])).1 ≤ ub) &&
            decide ((s, (leftRob[i], rightRob[i])).2.2 < 0)) = true := by
          simp [hub, hneg]
        rw [hcond, if_pos rfl, List.foldl_cons, pyRunningMin]
      · rw [if_neg hneg]
        rw [List.takeWhile_cons]
        have hcond : (decide ((s, (leftRob[i], rightRob[i])).1 ≤ ub) &&
            decide ((s, (leftRob[i], rightRob[i])).2.2 < 0)) = false := by
          simp [hneg]
        rw [hcond]
        simp
    · rw [if_neg hub]
      rw [List.takeWhile_cons]
      have hcond : (decide ((s, (leftRob[i], rightRob[i])).1 ≤ ub) &&
          decide ((s, (leftRob[i], rightRob[i])).2.2 < 0)) = false := by
        simp [hub]
      rw [hcond]
      simp

/-- C2 (amended): `Weak_Until.eval` performs one single scan with *absolute*
time bounds, not one window per instant: starting at the first sample whose
timestamp is at least `lb` (an `IndexError`, i.e. `none`, when there is none),
it accumulates the running minimum — seeded with the upper end of the left
formula's declared range — of the left robustness over the longest run of
samples whose timestamps do not exceed `ub` and whose right robustness is
negative, and returns that single value at every trace instant; the minimum is
returned even when the right formula never becomes non-negative. -/
theorem weak_until_absolute_single_scan (lb ub varHi : ℚ)
    (ts leftRob rightRob : List ℚ)
    (hl : leftRob.length = ts.length) (hr : rightRob.length = ts.length) :
    weakUntilEval lb ub varHi ts leftRob rightRob =
      (specFindIdx (fun s => decide (lb ≤ s)) ts).map
        (fun i0 => List.replicate ts.length
          (wuSpecMin ub varHi ts leftRob rightRob i0)) := by
  rw [weakUntilEval]
  rw [wuFindStart_eq_spec lb ts 0]
  cases hs : specFindIdx (fun s => decide (lb ≤ s)) ts with
  | none => rfl
  | some i0 =>
    simp only [Option.map_some', Nat.zero_add]
    rw [show ((some i0 : Option ℕ) >>= fun i0 =>
        wuScan ub leftRob rightRob (ts.drop i0) i0 varHi >>= fun m =>
          pure (List.replicate leftRob.length m)) =
        (wuScan ub leftRob rightRob (ts.drop i0) i0 varHi >>= fun m =>
          pure (List.replicate leftRob.length m)) from rfl]
    rw [wuScan_eq_spec ub ts leftRob rightRob hl hr (ts.drop i0) i0 varHi rfl]
    rw [wuSpecMin, hl]
    rfl

/-- Counterexample to C2 as stated: on timestamps `[0,1]` with left
robustness `[-3,5]`, right robustness `[-1,-1]`, bounds `[0,1]` and left range
upper bound `10`, the source returns the constant vector `[-3,-3]`, while the
claim's per-instant scan from `t[i]+lb` yields `[-3,5]` — at `t[1]` the claim
requires `5`, the minimum over the window starting at the sample `t = 1`. -/
theorem weak_until_per_instant_cx :
    weakUntilEval 0 1 10 [0, 1] [-3, 5] [-1, -1] = some [-3, -3] ∧
      specWeakUntilList 0 1 10 [0, 1] [-3, 5] [-1, -1] = [-3, 5] ∧
      ¬ ([-3, -3] : List ℚ) = [-3, 5] := by
  refine ⟨?_, ?_, ?_⟩
  · norm_num [weakUntilEval, wuFindStart, wuScan, List.replicate]
  · norm_num [specWeakUntilList, specWeakUntilAt, List.range_succ, List.findIdx,
      List.findIdx.go, List.takeWhile, min_def]
  · norm_num

/-- Witness for C2's amended theorem at a concrete trace. -/
theorem weak_until_absolute_single_scan_witness :
    weakUntilEval 0 1 10 [0, 1, 2] [4, -7, 9] [-1, -1, 5] = some [-7, -7, -7] := by
  have h := weak_until_absolute_single_scan 0 1 10 [0, 1, 2] [4, -7, 9] [-1, -1, 5] rfl rfl
  rw [h]
  norm_num [specFindIdx, wuSpecMin, List.takeWhile, min_def, List.replicate]

/-! ## Helper lemmas for the AST-builder flattening -/

theorem andArgs_of_not_bare {p : Phi} (h : isBareAnd p = false) : andArgs p = [p] := by
  cases p with
  | atom n b => rfl
  | or fs b => rfl
  | and fs b =>
    cases b with
    | false => simp [isBareAnd] at h
    | true => rfl

theorem orArgs_of_not_bare {p : Phi} (h : isBareOr p = false) : orArgs p = [p] := by
  cases p with
  | atom n b => rfl
  | and fs b => rfl
  | or fs b =>
    cases b with
    | false => simp [isBareOr] at h
    | true => rfl

theorem andArgs_setParenthesized (p : Phi) :
    andArgs (setParenthesized p) = [setParenthesized p] := by
  cases p <;> rfl

theorem orArgs_setParenthesized (p : Phi) :
    orArgs (setParenthesized p) = [setParenthesized p] := by
  cases p <;> rfl

/-- C3: the AST builder flattens chained `and`/`or` only across
unparenthesised children: for subformula units `A`, `B`, `C` (built formulas
that are not themselves unparenthesised `And`/`Or` nodes), the chain
`A and B and C` becomes one 3-ary `And`, while `A and (B and C)` becomes a
2-ary `And` whose second argument is a 2-ary `And`; a parenthesised
subexpression is never merged into the parent's argument list, and the same
holds for `or`. -/
theorem and_or_flattening_respects_parentheses :
    (∀ a b c : ParseTree,
        isBareAnd (visitPhi a) = false → isBareAnd (visitPhi b) = false →
        isBareAnd (visitPhi c) = false →
        visitPhi (.andNode (.andNode a b) c) =
          .and [visitPhi a, visitPhi b, visitPhi c] false) ∧
    (∀ a b c : ParseTree,
        isBareAnd (visitPhi a) = false → isBareAnd (visitPhi b) = false →
        isBareAnd (visitPhi c) = false →
        visitPhi (.andNode a (.paren (.andNode b c))) =
          .and [visitPhi a, .and [visitPhi b, visitPhi c] true] false) ∧
    (∀ a b : ParseTree, ∃ pre,
        visitPhi (.andNode a (.paren b)) =
          .and (pre ++ [setParenthesized (visitPhi b)]) false) ∧
    (∀ a b c : ParseTree,
        isBareOr (visitPhi a) = false → isBareOr (visitPhi b) = false →
        isBareOr (visitPhi c) = false →
        visitPhi (.orNode (.orNode a b) c) =
          .or [visitPhi a, visitPhi b, visitPhi c] false) ∧
    (∀ a b c : ParseTree,
        isBareOr (visitPhi a) = false → isBareOr (visitPhi b) = false →
        isBareOr (visitPhi c) = false →
        visitPhi (.orNode a (.paren (.orNode b c))) =
          .or [visitPhi a, .or [visitPhi b, visitPhi c] true] false) ∧
    (∀ a b : ParseTree, ∃ pre,
        visitPhi (.orNode a (.paren b)) =
          .or (pre ++ [setParenthesized (visitPhi b)]) false) := by
  refine ⟨?_, ?_, ?_, ?_, ?_, ?_⟩
  · intro a b c ha hb hc
    show Phi.and (andArgs (visitPhi (.andNode a b)) ++ andArgs (visitPhi c)) false = _
    rw [show visitPhi (.andNode a b) =
      .and (andArgs (visitPhi a) ++ andArgs (visitPhi b)) false from rfl]
    rw [andArgs_of_not_bare ha, andArgs_of_not_bare hb, andArgs_of_not_bare hc]
    rfl
  · intro a b c ha hb hc
    show Phi.and (andArgs (visitPhi a) ++
      andArgs (setParenthesized (visitPhi (.andNode b c)))) false = _
    rw [andArgs_setParenthesized, andArgs_of_not_bare ha]
    rw [show visitPhi (.andNode b c) =
      .and (andArgs (visitPhi b) ++ andArgs (visitPhi c)) false from rfl]
    rw [andArgs_of_not_bare hb, andArgs_of_not_bare hc]
    rfl
  · intro a b
    refine ⟨andArgs (visitPhi a), ?_⟩
    show Phi.and (andArgs (visitPhi a) ++
      andArgs (setParenthesized (visitPhi b))) false = _
    rw [andArgs_setParenthesized]
  · intro a b c ha hb hc
    show Phi.or (orArgs (visitPhi (.orNode a b)) ++ orArgs (visitPhi c)) false = _
    rw [show visitPhi (.orNode a b) =
      .or (orArgs (visitPhi a) ++ orArgs (visitPhi b)) false from rfl]
    rw [orArgs_of_not_bare ha, orArgs_of_not_bare hb, orArgs_of_not_bare hc]
    rfl
  · intro a b c ha hb hc
    show Phi.or (orArgs (visitPhi a) ++
      orArgs (setParenthesized (visitPhi (.orNode b c)))) false = _
    rw [orArgs_setParenthesized, orArgs_of_not_bare ha]
    rw [show visitPhi (.orNode b c) =
      .or (orArgs (visitPhi b) ++ orArgs (visitPhi c)) false from rfl]
    rw [orArgs_of_not_bare hb, orArgs_of_not_bare hc]
    rfl
  · intro a b
    refine ⟨orArgs (visitPhi a), ?_⟩
    show Phi.or (orArgs (visitPhi a) ++
      orArgs (setParenthesized (visitPhi b))) false = _
    rw [orArgs_setParenthesized]

/-- Witness for C3 at atomic subformulas `A`, `B`, `C`. -/
theorem and_or_flattening_respects_parentheses_witness :
    visitPhi (.andNode (.andNode (.atom "A") (.atom "B")) (.atom "C")) =
      .and [.atom "A" false, .atom "B" false, .atom "C" false] false ∧
    visitPhi (.andNode (.atom "A") (.paren (.andNode (.atom "B") (.atom "C")))) =
      .and [.atom "A" false, .and [.atom "B" false, .atom "C" false] true] false ∧
    visitPhi (.orNode (.orNode (.atom "A") (.atom "B")) (.atom "C")) =
      .or [.atom "A" false, .atom "B" false, .atom "C" false] false ∧
    visitPhi (.orNode (.atom "A") (.paren (.orNode (.atom "B") (.atom "C")))) =
      .or [.atom "A" false, .or [.atom "B" false, .atom "C" false] true] false := by
  refine ⟨?_, ?_, ?_, ?_⟩
  · exact and_or_flattening_respects_parentheses.1 (.atom "A") (.atom "B") (.atom "C")
      rfl rfl rfl
  · exact and_or_flattening_respects_parentheses.2.1 (.atom "A") (.atom "B") (.atom "C")
      rfl rfl rfl
  · exact and_or_flattening_respects_parentheses.2.2.2.1 (.atom "A") (.atom "B") (.atom "C")
      rfl rfl rfl
  · exact and_or_flattening_respects_parentheses.2.2.2.2.1 (.atom "A") (.atom "B") (.atom "C")
      rfl rfl rfl

/-- C4 (code bug): constructing an `And` whose children's ranges are all
known raises `AttributeError` even though `nu = 1 > 0` — the source calls
`self.range(min(A), min(B))` (line 399) instead of assigning
`self.range = [min(A), min(B)]`, and at that point the object has no `range`
attribute to call.  When some child's range is `None` construction succeeds
with range `None`, as the claim describes.  An `Or` with perfectly ordinary
children (`Const`) also fails: the inner `And` reads `.range` on the `Not`
wrappers, which only set `var_range`. -/
theorem and_known_ranges_attribute_error :
    andInit [signalAttrs (some (0, 1)), signalAttrs (some (0, 2))] 1 =
      .error .attributeError ∧
    andInit [signalAttrs none, signalAttrs (some (0, 2))] 1 =
      .ok { range := some none, var_range := none, horizon := some 0 } ∧
    orInit [constAttrs 1, constAttrs 2] 1 = .error .attributeError := by
  refine ⟨rfl, rfl, rfl⟩

/-! ## Helper lemma: the source's swap canonicalisation is (min, max) -/

theorem pySwap_eq_min_max (A B : ℚ) : pySwap A B = (min A B, max A B) := by
  rw [pySwap]
  by_cases h : A > B
  · rw [if_pos h, min_eq_right (le_of_lt h), max_eq_left (le_of_lt h)]
  · rw [if_neg h, min_eq_left (not_lt.mp h), max_eq_right (not_lt.mp h)]

/-- Counterexample to C5: with left range `[0,10]` and right range `[0,1]`,
`GreaterThan` stores the endpointwise differences `(0-0, 10-1) = (0,9)`,
not the interval subtraction `[0-1, 10-0] = (-1,10)` the claim requires. -/
theorem relational_range_cx :
    (greaterThanInit (signalAttrs (some (0, 10))) (signalAttrs (some (0, 1)))).map
        (fun a => a.range) = .ok (some (some (0, 9))) ∧
    ¬ (some (some ((0 : ℚ), (9 : ℚ))) : Option (Option (ℚ × ℚ))) =
        some (some (specIntervalSubRange (0, 10) (0, 1))) := by
  constructor
  · norm_num [greaterThanInit, signalAttrs, PyAttrs.getRangeAttr, pySwap, Except.map,
      Bind.bind, Except.bind, Pure.pure, Except.pure]
  · norm_num [specIntervalSubRange, pySwap]

/-- C5 (amended): for children with known static ranges the relational
predicates compute their range from the *endpointwise* differences of the
children's bounds, canonicalised into `(min, max)` order — `GreaterThan`
stores `(l₀-r₀, l₁-r₁)` sorted, `LessThan` stores `(r₀-l₀, r₁-l₁)` sorted,
`Equals` stores `(-|r₀-l₀|, -|r₁-l₁|)` sorted — while the underlying
`Subtract` node is the one that performs true interval subtraction
`[l₀-r₁, l₁-r₀]`. -/
theorem relational_range_endpointwise :
    (∀ (l r : ℚ × ℚ) (vl vr : Option (ℚ × ℚ)) (hl hr : Option ℚ),
      greaterThanInit ⟨some (some l), vl, hl⟩ ⟨some (some r), vr, hr⟩ =
        .ok { range := some (some (min (l.1 - r.1) (l.2 - r.2),
                                   max (l.1 - r.1) (l.2 - r.2))),
              var_range := none, horizon := some 0 }) ∧
    (∀ (l r : ℚ × ℚ) (rl rr : Option (Option (ℚ × ℚ))) (hl hr : Option ℚ),
      lessThanInit ⟨rl, some l, hl⟩ ⟨rr, some r, hr⟩ =
        .ok { range := none,
              var_range := some (min (r.1 - l.1) (r.2 - l.2),
                                 max (r.1 - l.1) (r.2 - l.2)),
              horizon := some 0 }) ∧
    (∀ (l r : ℚ × ℚ) (rl rr : Option (Option (ℚ × ℚ))) (hl hr : Option ℚ),
      equalsInit ⟨rl, some l, hl⟩ ⟨rr, some r, hr⟩ =
        .ok { range := none,
              var_range := some (min (-|r.1 - l.1|) (-|r.2 - l.2|),
                                 max (-|r.1 - l.1|) (-|r.2 - l.2|)),
              horizon := some 0 }) ∧
    (∀ (l r : ℚ × ℚ) (vl vr : Option (ℚ × ℚ)) (hl hr : Option ℚ),
      subtractInit ⟨some (some l), vl, hl⟩ ⟨some (some r), vr, hr⟩ =
        .ok { range := some (some (l.1 - r.2, l.2 - r.1)),
              var_range := none, horizon := none }) := by
  refine ⟨?_, ?_, ?_, ?_⟩
  · intro l r vl vr hl hr
    simp only [greaterThanInit, PyAttrs.getRangeAttr, pySwap_eq_min_max]
    rfl
  · intro l r rl rr hl hr
    simp only [lessThanInit, PyAttrs.getVarRange, pySwap_eq_min_max]
    rfl
  · intro l r rl rr hl hr
    simp only [equalsInit, PyAttrs.getVarRange, pySwap_eq_min_max]
    rfl
  · intro l r vl vr hl hr
    rfl

/-- Counterexample to C6: the child `Global(0,5,Signal)` has horizon `5`, yet
`GreaterThan` over it stores horizon `0`, not the maximum of its children's
horizons. -/
theorem horizon_cx :
    (globalInit 0 5 (signalAttrs none)).map (fun a => a.horizon) = .ok (some 5) ∧
    ((globalInit 0 5 (signalAttrs none)).bind
        (fun g => greaterThanInit g (signalAttrs (some (0, 1))))).map
      (fun a => a.horizon) = .ok (some 0) ∧
    ¬ (some (0 : ℚ) : Option ℚ) = some (max 5 0) := by
  refine ⟨?_, rfl, ?_⟩
  · norm_num [globalInit, signalAttrs, PyAttrs.getRangeAttr, PyAttrs.getHorizon,
      Except.map, Bind.bind, Except.bind, Pure.pure, Except.pure]
  · norm_num

/-- C6 (amended): the temporal operators and the genuinely compositional
nodes do expose a compositional horizon — `Global`/`Finally` store
`ub + child.horizon`, `Weak_Until` stores `ub + max` of the children's,
`Not` copies the child's, `Implication` and `And` take the maximum of the
children's — but `GreaterThan`, `LessThan`, `Equals` and `Abs` store horizon
`0` regardless of their children, and `Sum` and `Subtract` set no horizon
attribute at all. -/
theorem horizon_compositional_partial :
    (∀ (lb ub : ℚ) (rng : Option (ℚ × ℚ)) (vr : Option (ℚ × ℚ)) (h : ℚ),
      (globalInit lb ub ⟨some rng, vr, some h⟩).map (fun a => a.horizon) =
        .ok (some (ub + h))) ∧
    (∀ (lb ub : ℚ) (rl : Option (Option (ℚ × ℚ))) (v : ℚ × ℚ) (h : ℚ),
      (finallyInit lb ub ⟨rl, some v, some h⟩).map (fun a => a.horizon) =
        .ok (some (ub + h))) ∧
    (∀ (lb ub : ℚ) (rl rr : Option (Option (ℚ × ℚ))) (lv rv : ℚ × ℚ) (hl hr : ℚ),
      (weakUntilInit lb ub ⟨rl, some lv, some hl⟩ ⟨rr, some rv, some hr⟩).map
        (fun a => a.horizon) = .ok (some (ub + max hl hr))) ∧
    (∀ (rl : Option (Option (ℚ × ℚ))) (v : ℚ × ℚ) (h : ℚ),
      (notInit ⟨rl, some v, some h⟩).map (fun a => a.horizon) = .ok (some h)) ∧
    (∀ (rl rr : Option (Option (ℚ × ℚ))) (lv rv : ℚ × ℚ) (hl hr : ℚ),
      (implicationInit ⟨rl, some lv, some hl⟩ ⟨rr, some rv, some hr⟩).map
        (fun a => a.horizon) = .ok (some (max hl hr))) ∧
    (∀ (vr1 vr2 : Option (ℚ × ℚ)) (h1 h2 : ℚ),
      (andInit [⟨some none, vr1, some h1⟩, ⟨some none, vr2, some h2⟩] 1).map
        (fun a => a.horizon) = .ok (some (max h1 h2))) ∧
    (∀ (vl vr : Option (ℚ × ℚ)) (hl hr : Option ℚ) (l r : Option (ℚ × ℚ)),
      (greaterThanInit ⟨some l, vl, hl⟩ ⟨some r, vr, hr⟩).map (fun a => a.horizon) =
        .ok (some 0)) ∧
    (∀ (rl rr : Option (Option (ℚ × ℚ))) (lv rv : ℚ × ℚ) (hl hr : Option ℚ),
      (lessThanInit ⟨rl, some lv, hl⟩ ⟨rr, some rv, hr⟩).map (fun a => a.horizon) =
        .ok (some 0) ∧
      (equalsInit ⟨rl, some lv, hl⟩ ⟨rr, some rv, hr⟩).map (fun a => a.horizon) =
        .ok (some 0)) ∧
    (∀ (rl : Option (Option (ℚ × ℚ))) (v : ℚ × ℚ) (h : Option ℚ),
      (absInit ⟨rl, some v, h⟩).map (fun a => a.horizon) = .ok (some 0)) ∧
    (∀ (rl rr : Option (Option (ℚ × ℚ))) (lv rv : ℚ × ℚ) (hl hr : Option ℚ),
      (sumInit ⟨rl, some lv, hl⟩ ⟨rr, some rv, hr⟩).map (fun a => a.horizon) =
        .ok none) ∧
    (∀ (l r : Option (ℚ × ℚ)) (vl vr : Option (ℚ × ℚ)) (hl hr : Option ℚ),
      (subtractInit ⟨some l, vl, hl⟩ ⟨some r, vr, hr⟩).map (fun a => a.horizon) =
        .ok none) := by
  refine ⟨fun _ _ _ _ _ => rfl, fun _ _ _ _ _ => rfl, fun _ _ _ _ _ _ _ _ => rfl,
    fun _ _ _ => rfl, fun _ _ _ _ _ _ => rfl, fun _ _ _ _ => rfl,
    ?_, fun _ _ _ _ _ _ => ⟨rfl, rfl⟩, fun _ _ _ => rfl,
    fun _ _ _ _ _ _ => rfl, ?_⟩
  · intro vl vr hl hr l r
    cases l <;> cases r <;> rfl
  · intro l r vl vr hl hr
    cases l <;> cases r <;> rfl

/-- C7 (code bug): `from_mixed_signals` never succeeds.  With no sampling
period it raises `NotImplementedError` instead of inferring the smallest
timestamp gap; with a period it evaluates `self.sampling_period` on line 35,
but `self` is not bound in the classmethod (its first parameter is `C`), so
every such call raises `NameError` (`ValueError` first when the argument list
is empty, from `max()` over an empty sequence). -/
theorem from_mixed_signals_always_raises :
    fromMixedSignals [("x", [0, 1], [1, 2])] (some 1) = .error .nameError ∧
    fromMixedSignals [("x", [0, 1], [1, 2])] none = .error .notImplementedError ∧
    ∀ (args : List (String × List ℚ × List ℚ)) (period : Option ℚ),
      ∃ e, fromMixedSignals args period = .error e := by
  refine ⟨rfl, rfl, ?_⟩
  intro args period
  cases period with
  | none => exact ⟨.notImplementedError, rfl⟩
  | some p =>
    cases args with
    | nil => exact ⟨.valueError, rfl⟩
    | cons a rest => exact ⟨.nameError, rfl⟩

/-! ## Helper lemmas on the shape of constructed nodes -/

theorem subtractInit_var_range {l r s : PyAttrs}
    (h : subtractInit l r = .ok s) : s.var_range = none := by
  rw [subtractInit] at h
  cases hl : l.getRangeAttr with
  | error e => rw [hl] at h; exact absurd h (by simp [Bind.bind, Except.bind])
  | ok lr =>
    rw [hl] at h
    cases hr : r.getRangeAttr with
    | error e => rw [hr] at h; exact absurd h (by simp [Bind.bind, Except.bind])
    | ok rr =>
      rw [hr] at h
      simp only [Bind.bind, Except.bind, Pure.pure, Except.pure, Except.ok.injEq] at h
      rw [← h]

/-- C8 (code bug): `Equals.eval` can never return the remapped `-|l-r|`
vector: the `Not(Abs(Subtract(...)))` chain it builds at evaluation time
always raises `AttributeError` — with `Const` children `Subtract.__init__`
already reads the missing `range` attribute, and with range-bearing children
`Abs.__init__` reads `var_range` on the `Subtract` node, which only sets
`range`.  At the claim's own example `Equals(Const(3), Const(3))` evaluation
raises instead of returning the all-ones vector. -/
theorem equals_eval_attribute_error :
    equalsEvalRob (constAttrs 3) (constAttrs 3) [3, 3, 3, 3] [3, 3, 3, 3] =
      .error .attributeError ∧
    ∀ (l r : PyAttrs) (lRob rRob : List ℚ),
      ∃ e, equalsEvalRob l r lRob rRob = .error e := by
  constructor
  · rfl
  · intro l r lRob rRob
    cases hs : subtractInit l r with
    | error e =>
      exact ⟨e, by simp [equalsEvalRob, hs, Bind.bind, Except.bind]⟩
    | ok s =>
      refine ⟨.attributeError, ?_⟩
      have hvr := subtractInit_var_range hs
      simp [equalsEvalRob, hs, absInit, PyAttrs.getVarRange, hvr,
        Bind.bind, Except.bind]

theorem mapM_getHorizon_error {fs : List PyAttrs} :
    ∀ {e : PyErr}, fs.mapM PyAttrs.getHorizon = .error e → e = .attributeError := by
  induction fs with
  | nil =>
    intro e h
    exact absurd h (by simp [List.mapM, List.mapM.loop, Pure.pure, Except.pure])
  | cons f t ih =>
    intro e h
    rw [List.mapM_cons] at h
    cases hf : f.getHorizon with
    | error e0 =>
      rw [hf] at h
      simp only [Bind.bind, Except.bind, Except.error.injEq] at h
      rw [← h]
      rw [PyAttrs.getHorizon] at hf
      cases hh : f.horizon with
      | none => rw [hh] at hf; exact (Except.error.inj hf).symm
      | some v => rw [hh] at hf; exact absurd hf (by simp)
    | ok v =>
      rw [hf] at h
      cases ht : t.mapM PyAttrs.getHorizon with
      | error e1 =>
        rw [ht] at h
        simp only [Bind.bind, Except.bind, Except.error.injEq] at h
        rw [← h]
        exact ih ht
      | ok vs =>
        rw [ht] at h
        exact absurd h (by simp [Bind.bind, Except.bind, Pure.pure, Except.pure])

theorem mapM_getRangeAttr_error {fs : List PyAttrs} :
    ∀ {e : PyErr}, fs.mapM PyAttrs.getRangeAttr = .error e → e = .attributeError := by
  induction fs with
  | nil =>
    intro e h
    exact absurd h (by simp [List.mapM, List.mapM.loop, Pure.pure, Except.pure])
  | cons f t ih =>
    intro e h
    rw [List.mapM_cons] at h
    cases hf : f.getRangeAttr with
    | error e0 =>
      rw [hf] at h
      simp only [Bind.bind, Except.bind, Except.error.injEq] at h
      rw [← h]
      rw [PyAttrs.getRangeAttr] at hf
      cases hh : f.range with
      | none => rw [hh] at hf; exact (Except.error.inj hf).symm
      | some v => rw [hh] at hf; exact absurd hf (by simp)
    | ok v =>
      rw [hf] at h
      cases ht : t.mapM PyAttrs.getRangeAttr with
      | error e1 =>
        rw [ht] at h
        simp only [Bind.bind, Except.bind, Except.error.injEq] at h
        rw [← h]
        exact ih ht
      | ok vs =>
        rw [ht] at h
        exact absurd h (by simp [Bind.bind, Except.bind, Pure.pure, Except.pure])

theorem mapM_except_ok_length {α β : Type} {g : α → Except PyErr β} :
    ∀ {l : List α} {res : List β}, l.mapM g = .ok res → res.length = l.length := by
  intro l
  induction l with
  | nil =>
    intro res h
    simp only [List.mapM, List.mapM.loop, Pure.pure, Except.pure, Except.ok.injEq] at h
    rw [← h]; rfl
  | cons a t ih =>
    intro res h
    rw [List.mapM_cons] at h
    cases ha : g a with
    | error e => rw [ha] at h; exact absurd h (by simp [Bind.bind, Except.bind])
    | ok b =>
      rw [ha] at h
      cases ht : t.mapM g with
      | error e => rw [ht] at h; exact absurd h (by simp [Bind.bind, Except.bind])
      | ok bs =>
        rw [ht] at h
        simp only [Bind.bind, Except.bind, Pure.pure, Except.pure, Except.ok.injEq] at h
        rw [← h, List.length_cons, List.length_cons, ih ht]

theorem mapM_notInit_ok {fs : List PyAttrs}
    (h : ∀ f ∈ fs, f.var_range.isSome ∧ f.horizon.isSome) :
    ∃ ns, fs.mapM notInit = .ok ns := by
  induction fs with
  | nil => exact ⟨[], rfl⟩
  | cons f t ih =>
    obtain ⟨hv, hh⟩ := h f (by simp)
    obtain ⟨v, hv⟩ := Option.isSome_iff_exists.mp hv
    obtain ⟨hz, hhz⟩ := Option.isSome_iff_exists.mp hh
    obtain ⟨ns, hns⟩ := ih (fun g hg => h g (by simp [hg]))
    refine ⟨PyAttrs.mk none (some (pySwap (-v.1) (-v.2))) (some hz) :: ns, ?_⟩
    rw [List.mapM_cons, notInit]
    simp only [PyAttrs.getVarRange, PyAttrs.getHorizon, hv, hhz,
      Bind.bind, Except.bind, Pure.pure, Except.pure]
    rw [hns]

theorem andInit_nu_nonpos (fs : List PyAttrs) (nu : ℚ) (h : nu ≤ 0) :
    andInit fs nu = .error .valueError := by
  simp [andInit, h, Bind.bind, Except.bind, throw, throwThe, MonadExceptOf.throw]

theorem andInit_pos_ne_valueError (fs : List PyAttrs) (nu : ℚ) (hne : fs ≠ [])
    (hnu : 0 < nu) : ¬ andInit fs nu = .error .valueError := by
  rw [andInit]
  rw [if_neg (by exact not_le.mpr hnu)]
  cases hmap : fs.mapM PyAttrs.getHorizon with
  | error e =>
    have he := mapM_getHorizon_error hmap
    subst he
    simp [Bind.bind, Except.bind, hmap, Pure.pure, Except.pure]
  | ok hs =>
    cases hs with
    | nil =>
      exfalso
      have := mapM_except_ok_length hmap
      cases fs with
      | nil => exact hne rfl
      | cons a t => simp at this
    | cons h0 ht =>
      cases hmap2 : fs.mapM PyAttrs.getRangeAttr with
      | error e =>
        have he := mapM_getRangeAttr_error hmap2
        subst he
        simp [Bind.bind, Except.bind, hmap, hmap2, Pure.pure, Except.pure]
      | ok rs =>
        by_cases hany : rs.any Option.isNone
        · simp [Bind.bind, Except.bind, hmap, hmap2, Pure.pure, Except.pure, hany]
        · simp [Bind.bind, Except.bind, hmap, hmap2, Pure.pure, Except.pure, hany,
            throw, throwThe, MonadExceptOf.throw]

theorem andEvalSmoothed_isSome_nu (exp : ℚ → ℚ) (nu : ℚ) (rho : List (List ℚ)) :
    (andEvalSmoothed exp nu rho).isSome = (andEvalSmoothed exp 1 rho).isSome := by
  cases rho with
  | nil => rfl
  | cons r0 rest =>
    cases hb : rest.any (fun r => r.length ≠ r0.length) with
    | true => simp only [andEvalSmoothed, hb, if_true]
    | false =>
      simp only [andEvalSmoothed, hb, Bool.false_eq_true, if_false,
        Option.isSome_some]

/-- Counterexample to C9 as stated: an `Or` over a `Signal` child (which
defines `range` but no `var_range`) with `nu = -1 ≤ 0` fails with
`AttributeError` — the `Not(child)` wrappers are built before `And.__init__`
runs its `nu` check — not with the `ValueError` configuration error. -/
theorem or_nu_check_preempted_cx :
    orInit [signalAttrs none] (-1) = .error .attributeError ∧
    PyErr.attributeError ≠ PyErr.valueError := by
  constructor
  · rfl
  · decide

/-- C9 (amended): the `nu ≤ 0` check is performed at construction and only
at construction.  `And(fs, nu)` with `nu ≤ 0` raises `ValueError` for every
argument list; `Or(fs, nu)` with `nu ≤ 0` raises `ValueError` provided each
child defines `var_range` and `horizon` (otherwise building the `Not`
wrappers raises `AttributeError` first).  For `nu > 0` and at least one
argument, `And` never raises the `ValueError` configuration error, and
whether the smoothed evaluation succeeds is independent of `nu`: evaluation
never raises a `nu`-related error. -/
theorem nu_check_at_construction_only :
    (∀ (fs : List PyAttrs) (nu : ℚ), nu ≤ 0 →
      andInit fs nu = .error .valueError) ∧
    (∀ (fs : List PyAttrs) (nu : ℚ), nu ≤ 0 →
      (∀ f ∈ fs, f.var_range.isSome ∧ f.horizon.isSome) →
      orInit fs nu = .error .valueError) ∧
    (∀ (fs : List PyAttrs) (nu : ℚ), fs ≠ [] → 0 < nu →
      ¬ andInit fs nu = .error .valueError) ∧
    (∀ (exp : ℚ → ℚ) (nu : ℚ) (rho : List (List ℚ)),
      (andEvalSmoothed exp nu rho).isSome = (andEvalSmoothed exp 1 rho).isSome) := by
  refine ⟨andInit_nu_nonpos, ?_, andInit_pos_ne_valueError, andEvalSmoothed_isSome_nu⟩
  intro fs nu h hattr
  obtain ⟨ns, hns⟩ := mapM_notInit_ok hattr
  rw [orInit]
  rw [hns]
  simp [Bind.bind, Except.bind, andInit_nu_nonpos ns nu h]

/-- Witness for C9's amended theorem at concrete connectives. -/
theorem nu_check_at_construction_only_witness :
    andInit [constAttrs 1] 0 = .error .valueError ∧
    orInit [constAttrs 1] (-1) = .error .valueError ∧
    ¬ andInit [constAttrs 1] 1 = .error .valueError ∧
    (andEvalSmoothed (fun _ => 1) 5 [[2]]).isSome =
      (andEvalSmoothed (fun _ => 1) 1 [[2]]).isSome := by
  refine ⟨?_, ?_, ?_, ?_⟩
  · exact nu_check_at_construction_only.1 [constAttrs 1] 0 (by norm_num)
  · exact nu_check_at_construction_only.2.1 [constAttrs 1] (-1) (by norm_num)
      (by intro f hf; simp at hf; subst hf; simp [constAttrs])
  · exact nu_check_at_construction_only.2.2.1 [constAttrs 1] 1 (by simp) (by norm_num)
  · exact nu_check_at_construction_only.2.2.2 (fun _ => 1) 5 [[2]]

theorem map_getD_range : ∀ (l : List ℚ),
    (List.range l.length).map (fun i => l.getD i 0) = l := by
  intro l
  induction l with
  | nil => rfl
  | cons a t ih =>
    rw [List.length_cons, List.range_succ_eq_map, List.map_cons, List.map_map]
    have hc : ((fun i => (a :: t).getD i 0) ∘ Nat.succ) = fun i => t.getD i 0 := rfl
    rw [hc, ih]
    rfl

/-- C10: the smoothed conjunction is an identity on a single argument:
whenever `And(phi, nu)` is successfully constructed, the smoothed evaluation
of the single-row robustness matrix equals the child's robustness pointwise,
for any `exp` with `exp 0 = 1` (true of the real exponential): in each sign
case `rho_tilde = rho/rho - 1 = 0`, so the quotients collapse to the child's
value. -/
theorem and_single_formula_smoothed_identity :
    ∀ (child a : PyAttrs) (nu : ℚ) (exp : ℚ → ℚ) (rho : List ℚ),
      andInit [child] nu = .ok a → exp 0 = 1 →
      andEvalSmoothed exp nu [rho] = some rho := by
  intro child a nu exp rho _hinit hexp
  simp only [andEvalSmoothed, List.any_nil, Bool.false_eq_true, if_false]
  congr 1
  trans ((List.range rho.length).map (fun i => rho.getD i 0))
  · apply List.map_congr_left
    intro i _hi
    simp only [List.map_cons, List.map_nil, npMinQ, List.foldl_nil, List.zip_cons_cons,
      List.zip_nil_right, List.sum_cons, List.sum_nil]
    rcases lt_trichotomy (rho.getD i 0) 0 with hx | hx | hx
    · rw [if_pos hx, div_self (ne_of_lt hx)]
      norm_num [hexp]
    · rw [hx]
      norm_num
    · rw [if_neg (by linarith), if_pos hx, div_self (ne_of_gt hx)]
      norm_num [hexp]
  · exact map_getD_range rho

/-- Witness for C10: `And` over a single `Signal` child with unknown range
constructs successfully with `nu = 1`, and the smoothed evaluation of the
robustness vector `[2, -3, 0]` (one sample in each sign case) is the
identity. -/
theorem and_single_formula_smoothed_identity_witness :
    andEvalSmoothed (fun _ => 1) 1 [[2, -3, 0]] = some [2, -3, 0] :=
  and_single_formula_smoothed_identity (signalAttrs none)
    (PyAttrs.mk (some none) none (some 0)) 1 (fun _ => 1) [2, -3, 0] rfl rfl
